import Mathlib

/-!
Verification of the numerical engine of `main-notebook.ipynb`
(`discretized_schrodinger`): discretization of the 1-D time-independent
Schrödinger equation on a uniform mesh and extraction of the lowest `k`
eigenpairs of the resulting symmetric tridiagonal matrix.

Modelling conventions.  Python/NumPy double-precision values are embedded as
exact rationals (`ℚ`): every arithmetic operation performed by the source
(`linspace`, `diff`, `power`, elementwise add/mul, slicing) is an exact field
operation, so `ℚ` is a faithful exact-arithmetic model and keeps every
definition computable.  NumPy arrays are embedded as `List ℚ`, 2-D arrays as
`List (List ℚ)` in row-major layout.  Python exceptions are embedded as
`Except`.  The eigensolver `scipy.linalg.eigh_tridiagonal` is an external
library (not part of this repository); its behaviour is modelled from the
spec, see `eigh_tridiagonal` and `EighOutputOK` below.
-/

/-- Errors that can surface from the embedded pipeline.
`numpyValueError` models the `ValueError` raised by `np.ones(-1)` when the
requested off-diagonal length is negative (mesh size `N = 0`);
`invalidSelectRange` models the `ValueError` raised by
`scipy.linalg.eigh_tridiagonal` when `select_range = (0, k-1)` is not a valid
index range into the spectrum. -/
inductive SchrodError where
  | numpyValueError
  | invalidSelectRange
  deriving DecidableEq, Repr

/-- Embedding of `np.linspace(a, b, n)`: `n` evenly spaced points from `a`
to `b` inclusive, with step `(b - a) / (n - 1)`. -/
def linspace (a b : ℚ) (n : ℕ) : List ℚ :=
  (List.range n).map (fun i : ℕ => a + (i : ℚ) * ((b - a) / ((n : ℚ) - 1)))

/-- Source line `xs = np.linspace(initialBoundaryPoint, finalBoundaryPoint,
numPosSteps + 2)`: the mesh of `N + 2` points including both boundaries. -/
def meshPoints (a b : ℚ) (N : ℕ) : List ℚ :=
  linspace a b (N + 2)

/-- Source line `dx = np.diff(xs)[0]`: the first consecutive difference of
the mesh. -/
def dxOf (a b : ℚ) (N : ℕ) : ℚ :=
  (meshPoints a b N).getD 1 0 - (meshPoints a b N).getD 0 0

/-- Source line `Vx = potentialFunction(xs)`: the potential evaluated at
every mesh point (vectorized application embedded pointwise). -/
def potentialSamples (V : ℚ → ℚ) (a b : ℚ) (N : ℕ) : List ℚ :=
  (meshPoints a b N).map V

/-- Source line `main_diag = (np.power(dx, -2.0) + mass * Vx)[1:-1]`:
the elementwise expression over all `N + 2` samples, then the Python slice
`[1:-1]` trimming the two boundary entries. -/
def mainDiag (V : ℚ → ℚ) (a b : ℚ) (N : ℕ) (mass : ℚ) : List ℚ :=
  (((potentialSamples V a b N).map
      (fun v => dxOf a b N ^ (-2 : ℤ) + mass * v)).drop 1).dropLast

/-- Source line `off_diag = np.power(dx, -2.0) * -0.5 *
np.ones(len(main_diag) - 1)`. -/
def offDiag (V : ℚ → ℚ) (a b : ℚ) (N : ℕ) (mass : ℚ) : List ℚ :=
  List.replicate ((mainDiag V a b N mass).length - 1)
    (dxOf a b N ^ (-2 : ℤ) * (-0.5))

/-- The discretization step of `discretized_schrodinger` (source lines up to
the construction of `off_diag`).  The only failure path in the source is
`np.ones(len(main_diag) - 1)` raising `ValueError` when
`len(main_diag) - 1 = -1`, i.e. when the main diagonal is empty; the source
performs no other validation of its inputs. -/
def discretize (V : ℚ → ℚ) (a b : ℚ) (N : ℕ) (mass : ℚ) :
    Except SchrodError (List ℚ × List ℚ) :=
  if (mainDiag V a b N mass).length = 0 then
    Except.error SchrodError.numpyValueError
  else
    Except.ok (mainDiag V a b N mass, offDiag V a b N mass)

/-- Column `j` of a row-major 2-D array (entries beyond a row default
to `0`). -/
def col (j : ℕ) (M : List (List ℚ)) : List ℚ :=
  M.map (fun r => r.getD j 0)

/-- Embedding of NumPy `.T` on a well-formed row-major 2-D array: the list
of its columns. -/
def npTranspose (M : List (List ℚ)) : List (List ℚ) :=
  (List.range (M.headD []).length).map (fun j => col j M)

/-- Product of the symmetric tridiagonal matrix with main diagonal `main`
and off-diagonal `off` against a vector `v`:
`(T v) i = off (i-1) * v (i-1) + main i * v i + off i * v (i+1)`,
with out-of-range off-diagonal entries read as `0`. -/
def triMulVec (main off v : List ℚ) : List ℚ :=
  (List.range main.length).map (fun i =>
    (if i = 0 then 0 else off.getD (i - 1) 0 * v.getD (i - 1) 0)
      + main.getD i 0 * v.getD i 0
      + off.getD i 0 * v.getD (i + 1) 0)

/-- Dot product of two coordinate vectors. -/
def dot (u v : List ℚ) : ℚ :=
  (List.zipWith (fun x y => x * y) u v).sum

/-- Modelled from the spec: the observable contract of the partial
tridiagonal eigensolver (`scipy.linalg.eigh_tridiagonal`, whose
implementation is not part of this repository).  For a request of the `k`
lowest eigenpairs of the `N × N` symmetric tridiagonal matrix `(main, off)`,
the returned pair `(eigvals, eigstates)` satisfies: `eigvals` has length `k`
and is ascending; `eigstates` is an `N × k` row-major array whose column `j`
is a unit-norm eigenvector for `eigvals j`; distinct columns are orthogonal.
(The spec additionally says the `k` eigenvalues are the smallest ones; that
minimality is not modelled.) -/
def EighOutputOK (main off : List ℚ) (k : ℕ)
    (out : List ℚ × List (List ℚ)) : Prop :=
  out.1.length = k ∧
  List.Sorted (· ≤ ·) out.1 ∧
  out.2.length = main.length ∧
  (∀ r ∈ out.2, r.length = k) ∧
  (∀ j < k, triMulVec main off (col j out.2)
      = (col j out.2).map (fun t => out.1.getD j 0 * t)) ∧
  (∀ i < k, ∀ j < k,
    dot (col i out.2) (col j out.2) = if i = j then 1 else 0)

/-- Modelled from the spec: the call
`sp.linalg.eigh_tridiagonal(d = main_diag, e = off_diag, eigvals_only =
False, select = 'i', select_range = (0, numEigVals - 1))`.  The routine
itself is an external library; its input validation rejects an index range
`(0, k - 1)` that is not within the spectrum indices `0 .. N - 1`, i.e. it
raises unless `1 ≤ k ≤ N`.  The actual eigencomputation is abstracted as the
function argument `solver`, constrained where needed by `EighOutputOK`. -/
def eigh_tridiagonal (solver : List ℚ → List ℚ → ℕ → List ℚ × List (List ℚ))
    (main off : List ℚ) (k : ℕ) :
    Except SchrodError (List ℚ × List (List ℚ)) :=
  if 1 ≤ k ∧ k ≤ main.length then Except.ok (solver main off k)
  else Except.error SchrodError.invalidSelectRange

/-- Embedding of the full `discretized_schrodinger` function: discretize,
solve the tridiagonal eigenproblem for the lowest `k` pairs, then return
`(hbar / mass) * eigvals` together with `eigstates.T` (one state per row). -/
def discretized_schrodinger
    (solver : List ℚ → List ℚ → ℕ → List ℚ × List (List ℚ))
    (V : ℚ → ℚ) (a b : ℚ) (N k : ℕ) (mass hbar : ℚ) :
    Except SchrodError (List ℚ × List (List ℚ)) :=
  match discretize V a b N mass with
  | Except.error e => Except.error e
  | Except.ok (main, off) =>
    match eigh_tridiagonal solver main off k with
    | Except.error e => Except.error e
    | Except.ok (eigvals, eigstates) =>
      Except.ok (eigvals.map (fun t => hbar / mass * t), npTranspose eigstates)

/-- Test fixture: the identically-zero potential. -/
def zeroPotential : ℚ → ℚ := fun _ => 0

/-- Test fixture: a solver constant at the correct answer for the `1 × 1`
matrix `[[1]]`. -/
def solverConst : List ℚ → List ℚ → ℕ → List ℚ × List (List ℚ) :=
  fun _ _ _ => ([1], [[1]])

/-! ### Closed forms for the discretizer -/

theorem linspace_length (a b : ℚ) (n : ℕ) : (linspace a b n).length = n := by
  simp [linspace]

theorem linspace_getD (a b : ℚ) (n i : ℕ) (h : i < n) :
    (linspace a b n).getD i 0 = a + (i : ℚ) * ((b - a) / ((n : ℚ) - 1)) := by
  rw [linspace, List.getD_eq_getElem _ 0 (by simp [h])]
  simp

theorem dxOf_eq (a b : ℚ) (N : ℕ) : dxOf a b N = (b - a) / ((N : ℚ) + 1) := by
  rw [dxOf, meshPoints, linspace_getD a b (N+2) 1 (by omega),
    linspace_getD a b (N+2) 0 (by omega)]
  push_cast
  ring_nf

theorem trim_map_range (g : ℕ → ℚ) (n : ℕ) :
    (((List.range (n + 2)).map g).drop 1).dropLast
      = (List.range n).map (fun i : ℕ => g (i + 1)) := by
  rw [List.range_succ_eq_map (n + 1)]
  simp only [List.map_cons, List.drop_succ_cons, List.drop_zero, List.map_map]
  rw [List.range_succ, List.map_append]
  simp [Function.comp, Nat.succ_eq_add_one]

theorem mainDiag_eq (V : ℚ → ℚ) (a b : ℚ) (N : ℕ) (mass : ℚ) :
    mainDiag V a b N mass = (List.range N).map (fun i : ℕ =>
      ((b - a) / ((N : ℚ) + 1)) ^ (-2 : ℤ)
        + mass * V (a + ((i : ℚ) + 1) * ((b - a) / ((N : ℚ) + 1)))) := by
  have hc : ((N + 2 : ℕ) : ℚ) - 1 = (N : ℚ) + 1 := by push_cast; ring
  rw [mainDiag, potentialSamples, meshPoints, linspace, List.map_map, List.map_map,
    trim_map_range, dxOf_eq]
  apply List.map_congr_left
  intro i hi
  simp only [Function.comp, hc]
  push_cast
  ring_nf

theorem mainDiag_length (V : ℚ → ℚ) (a b : ℚ) (N : ℕ) (mass : ℚ) :
    (mainDiag V a b N mass).length = N := by
  rw [mainDiag_eq]; simp

theorem offDiag_eq (V : ℚ → ℚ) (a b : ℚ) (N : ℕ) (mass : ℚ) :
    offDiag V a b N mass
      = List.replicate (N - 1) (((b - a) / ((N : ℚ) + 1)) ^ (-2 : ℤ) * (-0.5)) := by
  rw [offDiag, mainDiag_length, dxOf_eq]

theorem discretize_ok (V : ℚ → ℚ) (a b : ℚ) (N : ℕ) (mass : ℚ) (hN : 1 ≤ N) :
    discretize V a b N mass
      = Except.ok (mainDiag V a b N mass, offDiag V a b N mass) := by
  rw [discretize, if_neg]
  rw [mainDiag_length]; omega

theorem discretize_err (V : ℚ → ℚ) (a b : ℚ) (mass : ℚ) :
    discretize V a b 0 mass = Except.error SchrodError.numpyValueError := by
  rw [discretize, if_pos]
  rw [mainDiag_length]

/-! ### C1 and C2: the discretization step -/

/-- C1: for every potential `V`, bounds `a, b`, mesh size `N ≥ 1` and mass,
the discretization step produces the mesh of `N + 2` uniformly spaced points
with spacing `dx = (b - a) / (N + 1)`, a main diagonal of length `N` with
`main i = dx ^ (-2) + mass * V (x (i+1))`, and an off-diagonal of length
`N - 1` with constant entry `-0.5 * dx ^ (-2)`. -/
theorem c1_discretizer_formulas (V : ℚ → ℚ) (a b : ℚ) (N : ℕ) (mass : ℚ)
    (_hN : 1 ≤ N) :
    (meshPoints a b N).length = N + 2 ∧
    (∀ i < N + 2, (meshPoints a b N).getD i 0
      = a + (i : ℚ) * ((b - a) / ((N : ℚ) + 1))) ∧
    (mainDiag V a b N mass).length = N ∧
    (∀ i < N, (mainDiag V a b N mass).getD i 0
      = ((b - a) / ((N : ℚ) + 1)) ^ (-2 : ℤ)
        + mass * V (a + ((i : ℚ) + 1) * ((b - a) / ((N : ℚ) + 1)))) ∧
    (offDiag V a b N mass).length = N - 1 ∧
    (∀ i < N - 1, (offDiag V a b N mass).getD i 0
      = -0.5 * ((b - a) / ((N : ℚ) + 1)) ^ (-2 : ℤ)) := by
  have hc : ((N + 2 : ℕ) : ℚ) - 1 = (N : ℚ) + 1 := by push_cast; ring
  refine ⟨?_, ?_, mainDiag_length V a b N mass, ?_, ?_, ?_⟩
  · rw [meshPoints, linspace_length]
  · intro i hi
    rw [meshPoints, linspace_getD a b (N + 2) i hi, hc]
  · intro i hi
    rw [mainDiag_eq, List.getD_eq_getElem _ 0 (by simpa using hi)]
    simp [hi]
  · rw [offDiag_eq]; simp
  · intro i hi
    rw [offDiag_eq, List.getD_eq_getElem _ 0 (by simpa using hi)]
    simp [hi, mul_comm]

/-- Witness for C1 at `V = 0`, `a = 0`, `b = 2`, `N = 1`, `mass = 1`. -/
theorem c1_discretizer_formulas_witness :
    1 ≤ 1 ∧
    ((meshPoints 0 2 1).length = 1 + 2 ∧
     (∀ i < 1 + 2, (meshPoints 0 2 1).getD i 0
       = 0 + (i : ℚ) * ((2 - 0) / (((1 : ℕ) : ℚ) + 1))) ∧
     (mainDiag zeroPotential 0 2 1 1).length = 1 ∧
     (∀ i < 1, (mainDiag zeroPotential 0 2 1 1).getD i 0
       = ((2 - 0) / (((1 : ℕ) : ℚ) + 1)) ^ (-2 : ℤ)
         + 1 * zeroPotential (0 + ((i : ℚ) + 1) * ((2 - 0) / (((1 : ℕ) : ℚ) + 1)))) ∧
     (offDiag zeroPotential 0 2 1 1).length = 1 - 1 ∧
     (∀ i < 1 - 1, (offDiag zeroPotential 0 2 1 1).getD i 0
       = -0.5 * ((2 - 0) / (((1 : ℕ) : ℚ) + 1)) ^ (-2 : ℤ))) :=
  ⟨by decide, c1_discretizer_formulas zeroPotential 0 2 1 1 (by decide)⟩

/-- C2 counterexample: at `a = 1 ≥ b = 0` and `mass = -1 ≤ 0` the
discretizer does not fail (the claim requires `InvalidDomain` for `a ≥ b`
and `InvalidMass` for `mass ≤ 0`): it succeeds, returning the diagonals
built from `dx = -1/2`. -/
theorem c2_error_taxonomy_counterexample :
    discretize zeroPotential 1 0 1 (-1) = Except.ok ([4], []) := by
  norm_num [discretize, mainDiag, offDiag, potentialSamples, meshPoints, linspace,
    dxOf, zeroPotential, List.range_succ]

/-- C2 amended: the source performs no input validation at all; the
discretization step succeeds for every total potential, every pair of
bounds (including `a ≥ b`) and every mass (including `mass ≤ 0`), and its
only failure is the generic `ValueError` from `np.ones(-1)` when `N < 1`. -/
theorem c2_no_validation (V : ℚ → ℚ) (a b : ℚ) (N : ℕ) (mass : ℚ) :
    (discretize V a b N mass).isOk = true ↔ 1 ≤ N := by
  constructor
  · intro h
    by_contra hN
    have h0 : N = 0 := by omega
    rw [h0, discretize_err] at h
    simp [Except.isOk, Except.toBool] at h
  · intro h
    rw [discretize_ok V a b N mass h]
    rfl

/-- Witness for the amended C2 at `N = 1`. -/
theorem c2_no_validation_witness : (discretize zeroPotential 0 2 1 1).isOk = true :=
  (c2_no_validation zeroPotential 0 2 1 1).mpr (by decide)

/-! ### Transpose and solver-path lemmas -/

theorem col_length (j : ℕ) (M : List (List ℚ)) : (col j M).length = M.length := by
  simp [col]

theorem npTranspose_length (M : List (List ℚ)) :
    (npTranspose M).length = (M.headD []).length := by
  simp [npTranspose]

theorem npTranspose_getD (M : List (List ℚ)) (j : ℕ)
    (hj : j < (M.headD []).length) :
    (npTranspose M).getD j [] = col j M := by
  rw [npTranspose, List.getD_eq_getElem _ _ (by simpa using hj)]
  simp

theorem npTranspose_mem_length (M : List (List ℚ)) (s : List ℚ)
    (hs : s ∈ npTranspose M) : s.length = M.length := by
  rw [npTranspose] at hs
  obtain ⟨j, hj, rfl⟩ := List.mem_map.mp hs
  exact col_length j M

theorem headD_length_of_rows (M : List (List ℚ)) (k : ℕ)
    (hM : M.length ≠ 0) (hr : ∀ r ∈ M, r.length = k) :
    (M.headD []).length = k := by
  cases M with
  | nil => simp at hM
  | cons r t => exact hr r (by simp)

theorem ds_ok (solver : List ℚ → List ℚ → ℕ → List ℚ × List (List ℚ))
    (V : ℚ → ℚ) (a b : ℚ) (N k : ℕ) (mass hbar : ℚ)
    (eigvals : List ℚ) (M : List (List ℚ))
    (hsolve : solver (mainDiag V a b N mass) (offDiag V a b N mass) k = (eigvals, M))
    (hN : 1 ≤ N) (hk1 : 1 ≤ k) (hkN : k ≤ N) :
    discretized_schrodinger solver V a b N k mass hbar
      = Except.ok (eigvals.map (fun t => hbar / mass * t), npTranspose M) := by
  unfold discretized_schrodinger
  rw [discretize_ok V a b N mass hN]
  simp only [eigh_tridiagonal]
  rw [if_pos ⟨hk1, by rw [mainDiag_length]; exact hkN⟩, hsolve]

theorem ds_err_N0 (solver : List ℚ → List ℚ → ℕ → List ℚ × List (List ℚ))
    (V : ℚ → ℚ) (a b : ℚ) (k : ℕ) (mass hbar : ℚ) :
    discretized_schrodinger solver V a b 0 k mass hbar
      = Except.error SchrodError.numpyValueError := by
  unfold discretized_schrodinger
  rw [discretize_err]

theorem ds_err_badk (solver : List ℚ → List ℚ → ℕ → List ℚ × List (List ℚ))
    (V : ℚ → ℚ) (a b : ℚ) (N k : ℕ) (mass hbar : ℚ)
    (hN : 1 ≤ N) (hk : k < 1 ∨ N < k) :
    discretized_schrodinger solver V a b N k mass hbar
      = Except.error SchrodError.invalidSelectRange := by
  unfold discretized_schrodinger
  rw [discretize_ok V a b N mass hN]
  simp only [eigh_tridiagonal]
  rw [if_neg (by rw [mainDiag_length]; omega)]

/-! ### C10, C8, C7 -/

/-- C10: for `k` outside `1 .. N` (with the discretization itself
succeeding, `N ≥ 1`), `discretized_schrodinger` fails with the
eigensolver's range error and returns no partial result. -/
theorem c10_bad_k (solver : List ℚ → List ℚ → ℕ → List ℚ × List (List ℚ))
    (V : ℚ → ℚ) (a b : ℚ) (N k : ℕ) (mass hbar : ℚ)
    (hN : 1 ≤ N) (hk : k < 1 ∨ N < k) :
    discretized_schrodinger solver V a b N k mass hbar
      = Except.error SchrodError.invalidSelectRange :=
  ds_err_badk solver V a b N k mass hbar hN hk

/-- Witness for C10 at `N = 1`, `k = 0`. -/
theorem c10_bad_k_witness :
    1 ≤ 1 ∧ (0 < 1 ∨ (1:ℕ) < 0) ∧
    discretized_schrodinger solverConst zeroPotential 0 2 1 0 1 1
      = Except.error SchrodError.invalidSelectRange :=
  ⟨by decide, Or.inl (by decide),
   c10_bad_k solverConst zeroPotential 0 2 1 0 1 1 (by decide) (Or.inl (by decide))⟩

/-- C8: the returned energies are homogeneous of degree 1 in `hbar` and the
returned states do not depend on `hbar`: running with scaling `hbar` is the
same as running with `hbar = 1` and multiplying every energy by `hbar`,
with identical states (unconditionally, including the error cases). -/
theorem c8_hbar_homogeneous (solver : List ℚ → List ℚ → ℕ → List ℚ × List (List ℚ))
    (V : ℚ → ℚ) (a b : ℚ) (N k : ℕ) (mass hbar : ℚ) :
    discretized_schrodinger solver V a b N k mass hbar
      = Except.map (fun p => (p.1.map (fun t => hbar * t), p.2))
          (discretized_schrodinger solver V a b N k mass 1) := by
  rcases Nat.eq_zero_or_pos N with h0 | hN
  · subst h0
    rw [ds_err_N0, ds_err_N0]
    rfl
  · by_cases hk : 1 ≤ k ∧ k ≤ N
    · rcases hsolve : solver (mainDiag V a b N mass) (offDiag V a b N mass) k
        with ⟨vals, M⟩
      rw [ds_ok solver V a b N k mass hbar vals M hsolve hN hk.1 hk.2,
        ds_ok solver V a b N k mass 1 vals M hsolve hN hk.1 hk.2]
      simp only [Except.map, Except.ok.injEq, Prod.mk.injEq, List.map_map,
        and_true]
      apply List.map_congr_left
      intro x hx
      show hbar / mass * x = hbar * (1 / mass * x)
      ring

    · have hbad : k < 1 ∨ N < k := by omega
      rw [ds_err_badk solver V a b N k mass hbar hN hbad,
        ds_err_badk solver V a b N k mass 1 hN hbad]
      rfl

/-- C7: two potentials that agree at the `N` interior mesh points
`x 1 .. x N` (they may differ at the endpoints) give identical outputs of
`discretized_schrodinger` for every eigensolver and every remaining
argument. -/
theorem c7_boundary_independence
    (solver : List ℚ → List ℚ → ℕ → List ℚ × List (List ℚ))
    (Va Vb : ℚ → ℚ) (a b : ℚ) (N k : ℕ) (mass hbar : ℚ)
    (h : ∀ j : ℕ, 1 ≤ j → j ≤ N →
      Va (a + (j : ℚ) * ((b - a) / ((N : ℚ) + 1)))
        = Vb (a + (j : ℚ) * ((b - a) / ((N : ℚ) + 1)))) :
    discretized_schrodinger solver Va a b N k mass hbar
      = discretized_schrodinger solver Vb a b N k mass hbar := by
  have hmain : mainDiag Va a b N mass = mainDiag Vb a b N mass := by
    rw [mainDiag_eq, mainDiag_eq]
    apply List.map_congr_left
    intro i hi
    have hij : ((i : ℚ) + 1) = ((i + 1 : ℕ) : ℚ) := by push_cast; ring
    rw [hij, h (i + 1) (by omega) (by simpa using hi)]
  have hoff : offDiag Va a b N mass = offDiag Vb a b N mass := by
    rw [offDiag_eq, offDiag_eq]
  have hdisc : discretize Va a b N mass = discretize Vb a b N mass := by
    unfold discretize
    rw [hmain, hoff]
  unfold discretized_schrodinger
  rw [hdisc]

/-- Witness for C7: over `[0, 2]` with `N = 1` the potentials `x ↦ 0` and
`x ↦ x - 1` agree at the single interior point `x = 1` but differ at both
endpoints, and the outputs coincide. -/
theorem c7_boundary_independence_witness :
    (∀ j : ℕ, 1 ≤ j → j ≤ 1 →
      zeroPotential (0 + (j : ℚ) * ((2 - 0) / (((1 : ℕ) : ℚ) + 1)))
        = (fun x : ℚ => x - 1) (0 + (j : ℚ) * ((2 - 0) / (((1 : ℕ) : ℚ) + 1)))) ∧
    discretized_schrodinger solverConst zeroPotential 0 2 1 1 1 1
      = discretized_schrodinger solverConst (fun x : ℚ => x - 1) 0 2 1 1 1 1 := by
  have h : ∀ j : ℕ, 1 ≤ j → 1 ≤ j → j ≤ 1 →
      zeroPotential (0 + (j : ℚ) * ((2 - 0) / (((1 : ℕ) : ℚ) + 1)))
        = (fun x : ℚ => x - 1) (0 + (j : ℚ) * ((2 - 0) / (((1 : ℕ) : ℚ) + 1))) := by
    intro j h1 h2 h3
    have : j = 1 := by omega
    subst this
    norm_num [zeroPotential]
  exact ⟨fun j h1 h2 => h j h1 h1 h2,
    c7_boundary_independence solverConst zeroPotential (fun x : ℚ => x - 1)
      0 2 1 1 1 1 (fun j h1 h2 => h j h1 h1 h2)⟩

/-! ### C3, C4, C5, C9: the eigensolver path -/

/-- C3: for every valid input (`N ≥ 1`, `1 ≤ k ≤ N`) and any eigensolver
meeting its contract on this call, `discretized_schrodinger` returns each
energy equal to `hbar / mass` times the corresponding eigenvalue of the
tridiagonal matrix, and returns the eigenvectors transposed to
one-state-per-row layout: `k` states, each a sequence of `N` amplitudes,
row `j` being the eigenvector for eigenvalue `j`. -/
theorem c3_energies_and_layout
    (solver : List ℚ → List ℚ → ℕ → List ℚ × List (List ℚ))
    (V : ℚ → ℚ) (a b : ℚ) (N k : ℕ) (mass hbar : ℚ)
    (hN : 1 ≤ N) (hk1 : 1 ≤ k) (hkN : k ≤ N)
    (hok : EighOutputOK (mainDiag V a b N mass) (offDiag V a b N mass) k
        (solver (mainDiag V a b N mass) (offDiag V a b N mass) k)) :
    ∃ eigvals M,
      solver (mainDiag V a b N mass) (offDiag V a b N mass) k = (eigvals, M) ∧
      discretized_schrodinger solver V a b N k mass hbar
        = Except.ok (eigvals.map (fun t => hbar / mass * t), npTranspose M) ∧
      (npTranspose M).length = k ∧
      (∀ s ∈ npTranspose M, s.length = N) ∧
      (∀ j < k,
        (npTranspose M).getD j [] = col j M ∧
        triMulVec (mainDiag V a b N mass) (offDiag V a b N mass)
            ((npTranspose M).getD j [])
          = ((npTranspose M).getD j []).map (fun t => eigvals.getD j 0 * t)) := by
  rcases hsolve : solver (mainDiag V a b N mass) (offDiag V a b N mass) k
    with ⟨vals, M⟩
  rw [hsolve] at hok
  obtain ⟨hlen, hsort, hM, hrows, heig, horth⟩ := hok
  have hMlen : M.length = N := by
    simpa [mainDiag_length] using hM
  have hhead : (M.headD []).length = k :=
    headD_length_of_rows M k (by omega) hrows
  refine ⟨vals, M, rfl,
    ds_ok solver V a b N k mass hbar vals M hsolve hN hk1 hkN, ?_, ?_, ?_⟩
  · rw [npTranspose_length, hhead]
  · intro s hs
    rw [npTranspose_mem_length M s hs, hMlen]
  · intro j hj
    have hgd : (npTranspose M).getD j [] = col j M :=
      npTranspose_getD M j (by rw [hhead]; exact hj)
    exact ⟨hgd, by rw [hgd]; exact heig j hj⟩

/-- C4: for every valid input, the sequence of `k` energies returned by
the solve is non-decreasing (the eigensolver contract gives ascending
eigenvalues and the nonnegative factor `hbar / mass` preserves order). -/
theorem c4_energies_ascending
    (solver : List ℚ → List ℚ → ℕ → List ℚ × List (List ℚ))
    (V : ℚ → ℚ) (a b : ℚ) (N k : ℕ) (mass hbar : ℚ)
    (hmass : 0 < mass) (hbar0 : 0 ≤ hbar)
    (hN : 1 ≤ N) (hk1 : 1 ≤ k) (hkN : k ≤ N)
    (hok : EighOutputOK (mainDiag V a b N mass) (offDiag V a b N mass) k
        (solver (mainDiag V a b N mass) (offDiag V a b N mass) k)) :
    ∃ ES, discretized_schrodinger solver V a b N k mass hbar = Except.ok ES ∧
      List.Sorted (· ≤ ·) ES.1 := by
  rcases hsolve : solver (mainDiag V a b N mass) (offDiag V a b N mass) k
    with ⟨vals, M⟩
  rw [hsolve] at hok
  obtain ⟨hlen, hsort, hM, hrows, heig, horth⟩ := hok
  refine ⟨(vals.map (fun t => hbar / mass * t), npTranspose M),
    ds_ok solver V a b N k mass hbar vals M hsolve hN hk1 hkN, ?_⟩
  have hc : 0 ≤ hbar / mass := div_nonneg hbar0 hmass.le
  exact List.Pairwise.map _
    (fun x y hxy => mul_le_mul_of_nonneg_left hxy hc) hsort

/-- C5: for every valid input, the returned eigenvector rows are
orthonormal within tolerance: every pairwise dot product of distinct
states is within `1e-8` of `0` and every state's Euclidean norm is within
`1e-8` of `1` (the exact-arithmetic contract gives exactly `0` and `1`,
hence within any nonnegative tolerance). -/
theorem c5_orthonormal
    (solver : List ℚ → List ℚ → ℕ → List ℚ × List (List ℚ))
    (V : ℚ → ℚ) (a b : ℚ) (N k : ℕ) (mass hbar : ℚ)
    (hN : 1 ≤ N) (hk1 : 1 ≤ k) (hkN : k ≤ N)
    (hok : EighOutputOK (mainDiag V a b N mass) (offDiag V a b N mass) k
        (solver (mainDiag V a b N mass) (offDiag V a b N mass) k)) :
    ∃ ES, discretized_schrodinger solver V a b N k mass hbar = Except.ok ES ∧
      (∀ i < k, ∀ j < k, i ≠ j →
        |((dot (ES.2.getD i []) (ES.2.getD j []) : ℚ) : ℝ) - 0| ≤ 1e-8) ∧
      (∀ i < k,
        |Real.sqrt ((dot (ES.2.getD i []) (ES.2.getD i []) : ℚ) : ℝ) - 1|
          ≤ 1e-8) := by
  rcases hsolve : solver (mainDiag V a b N mass) (offDiag V a b N mass) k
    with ⟨vals, M⟩
  rw [hsolve] at hok
  obtain ⟨hlen, hsort, hM, hrows, heig, horth⟩ := hok
  have hMlen : M.length = N := by
    simpa [mainDiag_length] using hM
  have hhead : (M.headD []).length = k :=
    headD_length_of_rows M k (by omega) hrows
  refine ⟨(vals.map (fun t => hbar / mass * t), npTranspose M),
    ds_ok solver V a b N k mass hbar vals M hsolve hN hk1 hkN, ?_, ?_⟩
  · intro i hi j hj hne
    have hgi := npTranspose_getD M i (by rw [hhead]; exact hi)
    have hgj := npTranspose_getD M j (by rw [hhead]; exact hj)
    have horthij := horth i hi j hj
    rw [if_neg hne] at horthij
    show |((dot ((npTranspose M).getD i []) ((npTranspose M).getD j []) : ℚ) : ℝ) - 0| ≤ 1e-8
    rw [hgi, hgj, horthij]
    norm_num
  · intro i hi
    have hgi := npTranspose_getD M i (by rw [hhead]; exact hi)
    have horthii := horth i hi i hi
    rw [if_pos rfl] at horthii
    show |Real.sqrt ((dot ((npTranspose M).getD i []) ((npTranspose M).getD i []) : ℚ) : ℝ) - 1| ≤ 1e-8
    rw [hgi, horthii]
    norm_num [Real.sqrt_one]

/-- C9: for `N = 1` and `k = 1`, `discretized_schrodinger` succeeds with
an empty off-diagonal and returns exactly one energy,
`(hbar / mass) * (dx ^ (-2) + mass * V (a + dx))` with `dx = (b - a) / 2`,
and one state of length 1 with unit absolute value. -/
theorem c9_single_point
    (solver : List ℚ → List ℚ → ℕ → List ℚ × List (List ℚ))
    (V : ℚ → ℚ) (a b : ℚ) (mass hbar : ℚ)
    (hok : EighOutputOK (mainDiag V a b 1 mass) (offDiag V a b 1 mass) 1
        (solver (mainDiag V a b 1 mass) (offDiag V a b 1 mass) 1)) :
    offDiag V a b 1 mass = [] ∧
    ∃ s : ℚ, |s| = 1 ∧
      discretized_schrodinger solver V a b 1 1 mass hbar
        = Except.ok
            ([hbar / mass * (((b - a) / 2) ^ (-2 : ℤ) + mass * V (a + (b - a) / 2))],
             [[s]]) := by
  have hoff : offDiag V a b 1 mass = [] := by
    rw [offDiag_eq]
    rfl
  have hmain : mainDiag V a b 1 mass
      = [((b - a) / 2) ^ (-2 : ℤ) + mass * V (a + (b - a) / 2)] := by
    rw [mainDiag_eq]
    norm_num [List.range_succ]
  rcases hsolve : solver (mainDiag V a b 1 mass) (offDiag V a b 1 mass) 1
    with ⟨vals, M⟩
  rw [hsolve] at hok
  obtain ⟨hlen, hsort, hM, hrows, heig, horth⟩ := hok
  obtain ⟨lam, rfl⟩ := List.length_eq_one.mp hlen
  have hM1 : M.length = 1 := by
    simpa [mainDiag_length] using hM
  obtain ⟨row, rfl⟩ := List.length_eq_one.mp hM1
  have hrow1 : row.length = 1 := hrows row (by simp)
  obtain ⟨m, rfl⟩ := List.length_eq_one.mp hrow1
  have hcol : col 0 [[m]] = [m] := by simp [col]
  have hd : dot [m] [m] = 1 := by
    have h := horth 0 (by decide) 0 (by decide)
    rwa [if_pos rfl, hcol] at h
  have hmm : m * m = 1 := by simpa [dot] using hd
  have habs : |m| = 1 := by
    rcases mul_self_eq_one_iff.mp hmm with h | h <;> simp [h]
  have heq := heig 0 (by decide)
  rw [hcol, hmain, hoff] at heq
  generalize hgc : ((b - a) / 2) ^ (-2 : ℤ) + mass * V (a + (b - a) / 2) = c
    at heq ⊢
  have htm : triMulVec [c] [] [m] = [c * m] := by simp [triMulVec, List.range_succ]
  rw [htm] at heq
  simp only [List.map_cons, List.map_nil, List.getD_cons_zero] at heq
  injection heq with hcm hnil
  have hm0 : m ≠ 0 := by
    intro h
    rw [h] at hmm
    simp at hmm
  have hlam : lam = c := (mul_right_cancel₀ hm0 hcm).symm
  refine ⟨hoff, m, habs, ?_⟩
  rw [ds_ok solver V a b 1 1 mass hbar [lam] [[m]] hsolve (by decide) (by decide)
    (by decide)]
  simp [npTranspose, col, hlam, List.range_succ]

/-- The eigensolver contract holds for the fixture `solverConst` on the
concrete `1 × 1` instance used by the witnesses below. -/
theorem eighOK_concrete :
    EighOutputOK (mainDiag zeroPotential 0 2 1 1) (offDiag zeroPotential 0 2 1 1) 1
      (solverConst (mainDiag zeroPotential 0 2 1 1) (offDiag zeroPotential 0 2 1 1) 1) := by
  norm_num [EighOutputOK, solverConst, mainDiag, offDiag, potentialSamples,
    meshPoints, linspace, dxOf, zeroPotential, List.range_succ, triMulVec, col, dot]

/-- Witness for C3 at the concrete `1 × 1` instance. -/
theorem c3_energies_and_layout_witness :
    (1 ≤ 1 ∧
     EighOutputOK (mainDiag zeroPotential 0 2 1 1) (offDiag zeroPotential 0 2 1 1) 1
       (solverConst (mainDiag zeroPotential 0 2 1 1) (offDiag zeroPotential 0 2 1 1) 1)) ∧
    (∃ eigvals M,
      solverConst (mainDiag zeroPotential 0 2 1 1) (offDiag zeroPotential 0 2 1 1) 1
        = (eigvals, M) ∧
      discretized_schrodinger solverConst zeroPotential 0 2 1 1 1 1
        = Except.ok (eigvals.map (fun t => 1 / 1 * t), npTranspose M) ∧
      (npTranspose M).length = 1 ∧
      (∀ s ∈ npTranspose M, s.length = 1) ∧
      (∀ j < 1,
        (npTranspose M).getD j [] = col j M ∧
        triMulVec (mainDiag zeroPotential 0 2 1 1) (offDiag zeroPotential 0 2 1 1)
            ((npTranspose M).getD j [])
          = ((npTranspose M).getD j []).map (fun t => eigvals.getD j 0 * t))) :=
  ⟨⟨by decide, eighOK_concrete⟩,
   c3_energies_and_layout solverConst zeroPotential 0 2 1 1 1 1
     (by decide) (by decide) (by decide) eighOK_concrete⟩

/-- Witness for C4 at the concrete `1 × 1` instance. -/
theorem c4_energies_ascending_witness :
    ((0:ℚ) < 1 ∧ (0:ℚ) ≤ 1 ∧ 1 ≤ 1) ∧
    ∃ ES, discretized_schrodinger solverConst zeroPotential 0 2 1 1 1 1
        = Except.ok ES ∧
      List.Sorted (· ≤ ·) ES.1 :=
  ⟨⟨by norm_num, by norm_num, by decide⟩,
   c4_energies_ascending solverConst zeroPotential 0 2 1 1 1 1 (by norm_num)
     (by norm_num) (by decide) (by decide) (by decide) eighOK_concrete⟩

/-- Witness for C5 at the concrete `1 × 1` instance. -/
theorem c5_orthonormal_witness :
    1 ≤ 1 ∧
    ∃ ES, discretized_schrodinger solverConst zeroPotential 0 2 1 1 1 1
        = Except.ok ES ∧
      (∀ i < 1, ∀ j < 1, i ≠ j →
        |((dot (ES.2.getD i []) (ES.2.getD j []) : ℚ) : ℝ) - 0| ≤ 1e-8) ∧
      (∀ i < 1,
        |Real.sqrt ((dot (ES.2.getD i []) (ES.2.getD i []) : ℚ) : ℝ) - 1|
          ≤ 1e-8) :=
  ⟨by decide, c5_orthonormal solverConst zeroPotential 0 2 1 1 1 1
    (by decide) (by decide) (by decide) eighOK_concrete⟩

/-- Witness for C9 at the concrete `1 × 1` instance. -/
theorem c9_single_point_witness :
    EighOutputOK (mainDiag zeroPotential 0 2 1 1) (offDiag zeroPotential 0 2 1 1) 1
      (solverConst (mainDiag zeroPotential 0 2 1 1) (offDiag zeroPotential 0 2 1 1) 1) ∧
    (offDiag zeroPotential 0 2 1 1 = [] ∧
     ∃ s : ℚ, |s| = 1 ∧
       discretized_schrodinger solverConst zeroPotential 0 2 1 1 1 1
         = Except.ok
             ([1 / 1 * (((2 - 0) / 2) ^ (-2 : ℤ) + 1 * zeroPotential (0 + (2 - 0) / 2))],
              [[s]])) :=
  ⟨eighOK_concrete, c9_single_point solverConst zeroPotential 0 2 1 1 eighOK_concrete⟩
